import Mathlib

/-!
Verification of the PMF-Copilot interview-capture core.

The definitions below are a shallow embedding of the repository's code:
the PCM encoder, chunk aggregator, teardown sequence, recording
initialization flow and transcript completion are translated from
`src/components/interview/TranscriptView.tsx`; the question orchestration
operations, whose implementation is not part of the repository snapshot,
are modelled from the specification.  Machine floats are embedded as
rationals: every operation the encoder performs on an audio sample
(clamping, scaling by 32768/32767, truncation) is exact on the float
values that can occur, so rational arithmetic is faithful.
-/

namespace PMFCopilot

/-! ## PCM encoding (`floatTo16BitPCM`) -/

/-- `Math.max(-1, Math.min(1, x))` from the source. -/
def clampSample (s : ℚ) : ℚ := max (-1) (min 1 s)

/-- `s < 0 ? s * 0x8000 : s * 0x7fff` from the source. -/
def scaleSample (s : ℚ) : ℚ := if s < 0 then s * 32768 else s * 32767

/-- Truncation toward zero, as performed by `DataView.setInt16` on a
non-integral argument. -/
def ratTrunc (q : ℚ) : ℤ := if q < 0 then ⌈q⌉ else ⌊q⌋

/-- The signed 16-bit value the encoder computes for one sample. -/
def encodeSample (s : ℚ) : ℤ := ratTrunc (scaleSample (clampSample s))

/-- Two's-complement 16-bit representation of the encoded sample. -/
def sampleToUint16 (s : ℚ) : ℕ := ((encodeSample s) % 65536).toNat

/-- `floatTo16BitPCM` from `TranscriptView.tsx`: each sample is clamped,
scaled asymmetrically, truncated to an int16 and written little-endian
(low byte first) into the output buffer. -/
def floatTo16BitPCM : List ℚ → List ℕ
  | [] => []
  | s :: rest =>
      sampleToUint16 s % 256 :: sampleToUint16 s / 256 :: floatTo16BitPCM rest

/-- Reading the byte buffer back as little-endian signed 16-bit integers. -/
def decodePCM16 : List ℕ → List ℤ
  | lo :: hi :: rest =>
      (if lo + 256 * hi < 32768 then (lo + 256 * hi : ℤ)
       else (lo + 256 * hi : ℤ) - 65536) :: decodePCM16 rest
  | _ => []

theorem clampSample_mem (s : ℚ) : -1 ≤ clampSample s ∧ clampSample s ≤ 1 := by
  constructor
  · exact le_max_left _ _
  · exact max_le (by norm_num) (min_le_left _ _)

theorem ratTrunc_neg {q : ℚ} (hq : q < 0) :
    q ≤ (ratTrunc q : ℚ) ∧ ratTrunc q ≤ 0 := by
  unfold ratTrunc
  rw [if_pos hq]
  exact ⟨Int.le_ceil q, Int.ceil_le.mpr (by exact_mod_cast hq.le)⟩

theorem ratTrunc_nonneg {q : ℚ} (hq : 0 ≤ q) :
    0 ≤ ratTrunc q ∧ (ratTrunc q : ℚ) ≤ q := by
  unfold ratTrunc
  rw [if_neg (not_lt.mpr hq)]
  exact ⟨Int.floor_nonneg.mpr hq, Int.floor_le q⟩

theorem encodeSample_bounds (s : ℚ) :
    -32768 ≤ encodeSample s ∧ encodeSample s ≤ 32767 := by
  obtain ⟨hlo, hhi⟩ := clampSample_mem s
  unfold encodeSample
  by_cases h : clampSample s < 0
  · have hs : scaleSample (clampSample s) = clampSample s * 32768 := if_pos h
    rw [hs]
    have hq : clampSample s * 32768 < 0 := mul_neg_of_neg_of_pos h (by norm_num)
    obtain ⟨h1, h2⟩ := ratTrunc_neg hq
    constructor
    · have h3 : (-32768 : ℚ) ≤ clampSample s * 32768 := by nlinarith
      have h4 : (-32768 : ℚ) ≤ (ratTrunc (clampSample s * 32768) : ℚ) :=
        le_trans h3 h1
      exact_mod_cast h4
    · omega
  · have hc0 : 0 ≤ clampSample s := le_of_not_lt h
    have hs : scaleSample (clampSample s) = clampSample s * 32767 := if_neg h
    rw [hs]
    obtain ⟨h1, h2⟩ := ratTrunc_nonneg (q := clampSample s * 32767) (by positivity)
    constructor
    · omega
    · have h3 : (clampSample s * 32767 : ℚ) ≤ 32767 := by nlinarith
      have h4 : (ratTrunc (clampSample s * 32767) : ℚ) ≤ 32767 := le_trans h2 h3
      exact_mod_cast h4

theorem sampleToUint16_spec (s : ℚ) :
    sampleToUint16 s < 65536 ∧
    (if sampleToUint16 s < 32768 then (sampleToUint16 s : ℤ)
     else (sampleToUint16 s : ℤ) - 65536) = encodeSample s := by
  obtain ⟨hlo, hhi⟩ := encodeSample_bounds s
  unfold sampleToUint16
  set v := encodeSample s with hv
  by_cases h : 0 ≤ v
  · have hmod : v % 65536 = v := Int.emod_eq_of_lt h (by omega)
    rw [hmod]
    have h1 : v.toNat < 32768 := by omega
    constructor
    · omega
    · rw [if_pos h1]
      omega
  · have hv0 : v < 0 := lt_of_not_le h
    have hmod : v % 65536 = v + 65536 := by omega
    rw [hmod]
    have h1 : ¬ (v + 65536).toNat < 32768 := by omega
    constructor
    · omega
    · rw [if_neg h1]
      omega

/-- C2: for every sequence of samples, the PCM encoder emits exactly two
bytes per sample, and reading the bytes back as little-endian signed
16-bit integers yields precisely the clamped, asymmetrically scaled and
truncated input samples. -/
theorem floatTo16BitPCM_roundtrip (xs : List ℚ) :
    (floatTo16BitPCM xs).length = 2 * xs.length ∧
    decodePCM16 (floatTo16BitPCM xs) = xs.map encodeSample := by
  induction xs with
  | nil => exact ⟨rfl, rfl⟩
  | cons s rest ih =>
      obtain ⟨hlen, hdec⟩ := ih
      obtain ⟨hu, hval⟩ := sampleToUint16_spec s
      constructor
      · simp only [floatTo16BitPCM, List.length_cons, hlen]
        ring
      · have hsplit : sampleToUint16 s % 256 + 256 * (sampleToUint16 s / 256)
            = sampleToUint16 s := Nat.mod_add_div _ _
        have hsplitZ : ((sampleToUint16 s % 256 : ℕ) : ℤ)
            + 256 * ((sampleToUint16 s / 256 : ℕ) : ℤ)
            = ((sampleToUint16 s : ℕ) : ℤ) := by omega
        simp only [floatTo16BitPCM, decodePCM16, hsplit, hsplitZ, List.map_cons,
          hdec, List.cons.injEq, and_true]
        exact hval

/-! ## Chunk aggregation: accumulator text

JS strings are modelled as lists of characters; `String.prototype.trim`
removes whitespace from both ends. -/

abbrev Str := List Char

def isWSChar (c : Char) : Bool := c.isWhitespace

def trimLeft (s : Str) : Str := s.dropWhile isWSChar

def trimRight (s : Str) : Str := (s.reverse.dropWhile isWSChar).reverse

def trimStr (s : Str) : Str := trimRight (trimLeft s)

/-- One `onmessage` step with a final fragment:
`currentChunkRef.current = (currentChunkRef.current + " " + newTranscript).trim()`. -/
def appendFragment (acc frag : Str) : Str := trimStr (acc ++ ' ' :: frag)

/-- The accumulator built from a sequence of final fragments, starting empty. -/
def accumulateFragments (frags : List Str) : Str := frags.foldl appendFragment []

/-- The flush step (timer body): emit a chunk with the trimmed accumulator
content iff that trimmed content is non-empty. -/
def flushAcc (acc : Str) : Option Str :=
  if trimStr acc = [] then none else some (trimStr acc)

/-- Fragments joined by single spaces (the spec's description of the
aggregated chunk text). -/
def joinSpace : List Str → Str
  | [] => []
  | [s] => s
  | s :: rest => s ++ ' ' :: joinSpace rest

theorem length_dropWhileWS_le (l : Str) :
    (l.dropWhile isWSChar).length ≤ l.length := by
  induction l with
  | nil => simp [List.dropWhile]
  | cons x t ih =>
      rw [List.dropWhile_cons]
      by_cases h : isWSChar x
      · rw [if_pos h]
        exact le_trans ih (Nat.le_succ _)
      · rw [if_neg h]

theorem trimLeft_of_trimStr {s : Str} (h : trimStr s = s) :
    trimLeft s = s ∧ trimRight s = s := by
  have h1 : (trimLeft s).length ≤ s.length := length_dropWhileWS_le s
  have h2 : (trimRight (trimLeft s)).length ≤ (trimLeft s).length := by
    unfold trimRight
    rw [List.length_reverse]
    exact le_trans (length_dropWhileWS_le _) (le_of_eq (List.length_reverse _))
  have hlen : s.length ≤ (trimRight (trimLeft s)).length := le_of_eq (congrArg List.length h).symm
  have hL : (trimLeft s).length = s.length := le_antisymm h1 (le_trans hlen h2)
  have hLeq : trimLeft s = s := by
    unfold trimLeft at hL ⊢
    induction s with
    | nil => rfl
    | cons x t ih =>
        rw [List.dropWhile_cons] at hL ⊢
        by_cases hx : isWSChar x
        · rw [if_pos hx] at hL
          have := length_dropWhileWS_le t
          simp only [List.length_cons] at hL
          omega
        · rw [if_neg hx]
  refine ⟨hLeq, ?_⟩
  have := h
  unfold trimStr at this
  rw [hLeq] at this
  exact this

theorem head_not_ws {x : Char} {t : Str} (h : trimLeft (x :: t) = x :: t) :
    isWSChar x = false := by
  by_contra hx
  have hx' : isWSChar x = true := by
    cases hb : isWSChar x
    · exact absurd hb hx
    · rfl
  unfold trimLeft at h
  rw [List.dropWhile_cons, if_pos hx'] at h
  have h1 := length_dropWhileWS_le t
  have h2 := congrArg List.length h
  simp only [List.length_cons] at h2
  omega

theorem trimLeft_cons_of_not_ws {x : Char} (t : Str) (hx : isWSChar x = false) :
    trimLeft (x :: t) = x :: t := by
  unfold trimLeft
  rw [List.dropWhile_cons, if_neg (by simp [hx])]

/-- Gluing lemma: concatenating two trimmed non-empty strings with one
space between them yields a string that trimming does not change. -/
theorem trimStr_append {a b : Str} (ha : trimStr a = a) (hna : a ≠ [])
    (hb : trimStr b = b) (hnb : b ≠ []) :
    trimStr (a ++ ' ' :: b) = a ++ ' ' :: b := by
  obtain ⟨hla, hra⟩ := trimLeft_of_trimStr ha
  obtain ⟨hlb, hrb⟩ := trimLeft_of_trimStr hb
  obtain ⟨x, t, rfl⟩ := List.exists_cons_of_ne_nil hna
  have hx : isWSChar x = false := head_not_ws hla
  have hbrev : b.reverse ≠ [] := by
    intro hc
    exact hnb (by simpa using congrArg List.reverse hc)
  obtain ⟨y, u, hyu⟩ := List.exists_cons_of_ne_nil hbrev
  have hy : isWSChar y = false := by
    have : trimLeft b.reverse = b.reverse := by
      have := congrArg List.reverse hrb
      unfold trimRight at this
      simp only [List.reverse_reverse] at this
      unfold trimLeft
      rw [this]
    rw [hyu] at this
    exact head_not_ws this
  unfold trimStr
  have hL : trimLeft (x :: t ++ ' ' :: b) = x :: t ++ ' ' :: b := by
    have := trimLeft_cons_of_not_ws (t ++ ' ' :: b) hx
    simpa using this
  rw [hL]
  unfold trimRight
  have hrev : (x :: t ++ ' ' :: b).reverse = y :: (u ++ ' ' :: (x :: t).reverse) := by
    rw [List.reverse_append, List.reverse_cons, hyu]
    simp
  rw [hrev]
  have := trimLeft_cons_of_not_ws (u ++ ' ' :: (x :: t).reverse) hy
  unfold trimLeft at this
  rw [this, ← hrev, List.reverse_reverse]

theorem joinSpace_cons_cons (a b : Str) (rest : List Str) :
    joinSpace (a :: b :: rest) = a ++ ' ' :: joinSpace (b :: rest) := rfl

theorem joinSpace_glue (a b : Str) (rest : List Str) :
    joinSpace ((a ++ ' ' :: b) :: rest) = a ++ ' ' :: joinSpace (b :: rest) := by
  cases rest with
  | nil => rfl
  | cons r rs =>
      rw [joinSpace_cons_cons, joinSpace_cons_cons]
      simp

theorem accumulate_go (frags : List Str) :
    ∀ acc : Str, trimStr acc = acc → acc ≠ [] →
    (∀ f ∈ frags, trimStr f = f ∧ f ≠ []) →
    frags.foldl appendFragment acc = joinSpace (acc :: frags) ∧
    trimStr (joinSpace (acc :: frags)) = joinSpace (acc :: frags) ∧
    joinSpace (acc :: frags) ≠ [] := by
  induction frags with
  | nil =>
      intro acc hacc hne _
      exact ⟨rfl, hacc, hne⟩
  | cons f fs ih =>
      intro acc hacc hne hall
      obtain ⟨hf, hfne⟩ := hall f (List.mem_cons_self f fs)
      have hglue : trimStr (acc ++ ' ' :: f) = acc ++ ' ' :: f :=
        trimStr_append hacc hne hf hfne
      have hstep : appendFragment acc f = acc ++ ' ' :: f := by
        unfold appendFragment
        exact hglue
      have hne' : acc ++ ' ' :: f ≠ [] := by simp
      have hall' : ∀ g ∈ fs, trimStr g = g ∧ g ≠ [] := fun g hg =>
        hall g (List.mem_cons_of_mem f hg)
      obtain ⟨e1, e2, e3⟩ := ih (acc ++ ' ' :: f) (hstep ▸ hglue) hne' hall'
      rw [joinSpace_glue] at e1 e2 e3
      refine ⟨?_, ?_, ?_⟩
      · rw [List.foldl_cons, hstep, e1, joinSpace_cons_cons]
      · rw [joinSpace_cons_cons]
        exact e2
      · rw [joinSpace_cons_cons]
        exact e3

/-- C3 (amended): for fragments that are non-empty and carry no leading or
trailing whitespace, one flush interval's worth of final fragments yields
exactly one chunk whose text is the fragments joined by single spaces. -/
theorem flushAcc_accumulateFragments (frags : List Str)
    (hall : ∀ f ∈ frags, trimStr f = f ∧ f ≠ []) (hne : frags ≠ []) :
    flushAcc (accumulateFragments frags) = some (joinSpace frags) := by
  obtain ⟨f, fs, rfl⟩ := List.exists_cons_of_ne_nil hne
  obtain ⟨hf, hfne⟩ := hall f (List.mem_cons_self f fs)
  obtain ⟨hlf, hrf⟩ := trimLeft_of_trimStr hf
  have hfirst : appendFragment [] f = f := by
    unfold appendFragment trimStr
    have h1 : trimLeft ([] ++ ' ' :: f) = trimLeft f := by
      unfold trimLeft
      rw [List.nil_append, List.dropWhile_cons, if_pos (by simp [isWSChar])]
    rw [h1]
    unfold trimLeft at hlf
    unfold trimLeft
    rw [hlf]
    have := hf
    unfold trimStr at this
    unfold trimLeft at this
    rw [hlf] at this
    exact this
  have hall' : ∀ g ∈ fs, trimStr g = g ∧ g ≠ [] := fun g hg =>
    hall g (List.mem_cons_of_mem f hg)
  obtain ⟨e1, e2, e3⟩ := accumulate_go fs f hf hfne hall'
  unfold accumulateFragments
  rw [List.foldl_cons, hfirst, e1]
  unfold flushAcc
  rw [e2, if_neg e3]

/-- C3 counterexample: a fragment with trailing whitespace.  The code
trims the accumulator at every append, so the fragments `"a "` and `"b"`
produce the chunk text `"a b"`, not the claimed join-then-trim result
`"a  b"` (two interior spaces survive a trim). -/
theorem flushAcc_fragments_counterexample :
    flushAcc (accumulateFragments [['a', ' '], ['b']])
      ≠ some (trimStr (joinSpace [['a', ' '], ['b']])) := by decide

/-- C3 witness: the spec's own scenario, two final fragments inside one
5-second window, yields exactly one chunk with the joined text. -/
theorem flushAcc_accumulateFragments_witness :
    flushAcc (accumulateFragments
      [("we usually hack something together").data, ("with prompts").data])
      = some (("we usually hack something together with prompts").data) :=
  (flushAcc_accumulateFragments
    [("we usually hack something together").data, ("with prompts").data]
    (by decide) (by decide)).trans (by decide)

/-! ## Stop/teardown sequence (the `!isRecording` branch of the effect) -/

/-- A transcript chunk as kept in component state: its text, the elapsed
milliseconds its `MM:SS` timestamp was formatted from, and whether it is
an injected question marker. -/
structure Chunk where
  text : Str
  elapsedMs : ℕ
  isMarker : Bool
  deriving DecidableEq

/-- The mutable refs that the stop branch inspects and releases. -/
structure RecState where
  chunkTimer : Bool
  socket : Bool
  processor : Bool
  mediaStream : Bool
  audioContextPresent : Bool
  audioContextClosed : Bool
  acc : Str
  chunks : List Chunk
  startTime : Option ℕ
  deriving DecidableEq

inductive TeardownAction
  | cancelTimer
  | closeSocket
  | disconnectProcessor
  | stopTracks
  | closeAudioContext
  | flushChunk
  deriving DecidableEq

/-- `getElapsedTime` in milliseconds: zero when no recording start time is
set, otherwise the time since recording started. -/
def getElapsedMs (now : ℕ) (startTime : Option ℕ) : ℕ :=
  match startTime with
  | none => 0
  | some t0 => now - t0

/-- The stop branch of the main effect, translated guard by guard: cancel
the chunk timer, close the socket, disconnect the processor, stop the
media tracks, close the audio context (only if present and not already
closed), flush a trailing non-empty accumulator as a final chunk, then
clear the accumulator and the start time. -/
def stopCleanup (now : ℕ) (s : RecState) : RecState × List TeardownAction :=
  let p1 := if s.chunkTimer
    then ({ s with chunkTimer := false }, [TeardownAction.cancelTimer])
    else (s, ([] : List TeardownAction))
  let p2 := if p1.1.socket
    then ({ p1.1 with socket := false }, p1.2 ++ [TeardownAction.closeSocket])
    else p1
  let p3 := if p2.1.processor
    then ({ p2.1 with processor := false }, p2.2 ++ [TeardownAction.disconnectProcessor])
    else p2
  let p4 := if p3.1.mediaStream
    then ({ p3.1 with mediaStream := false }, p3.2 ++ [TeardownAction.stopTracks])
    else p3
  let p5 := if p4.1.audioContextPresent && !p4.1.audioContextClosed
    then ({ p4.1 with audioContextPresent := false }, p4.2 ++ [TeardownAction.closeAudioContext])
    else p4
  let p6 := if trimStr p5.1.acc = [] then p5
    else ({ p5.1 with
             chunks := p5.1.chunks
               ++ [⟨trimStr p5.1.acc, getElapsedMs now p5.1.startTime, false⟩] },
          p5.2 ++ [TeardownAction.flushChunk])
  ({ p6.1 with acc := [], startTime := none }, p6.2)

/-- The order in which the stop branch performs its teardown steps. -/
def teardownOrder : List TeardownAction :=
  [TeardownAction.cancelTimer, TeardownAction.closeSocket,
   TeardownAction.disconnectProcessor, TeardownAction.stopTracks,
   TeardownAction.closeAudioContext, TeardownAction.flushChunk]

/-- Whether a given teardown step fires from a given state. -/
def teardownGuard (s : RecState) : TeardownAction → Bool
  | TeardownAction.cancelTimer => s.chunkTimer
  | TeardownAction.closeSocket => s.socket
  | TeardownAction.disconnectProcessor => s.processor
  | TeardownAction.stopTracks => s.mediaStream
  | TeardownAction.closeAudioContext => s.audioContextPresent && !s.audioContextClosed
  | TeardownAction.flushChunk => decide (trimStr s.acc ≠ [])

theorem trimStr_nil : trimStr ([] : Str) = [] := rfl

theorem stopCleanup_trace (now : ℕ) (s : RecState) :
    (stopCleanup now s).2 = teardownOrder.filter (teardownGuard s) := by
  obtain ⟨b1, b2, b3, b4, b5, b6, acc, chunks, st⟩ := s
  by_cases h6 : trimStr acc = [] <;>
    cases b1 <;> cases b2 <;> cases b3 <;> cases b4 <;> cases b5 <;> cases b6 <;>
      simp [stopCleanup, teardownOrder, teardownGuard, h6]

/-- C4: stopping a session performs the teardown steps in exactly the
canonical order — the emitted action trace is always an in-order
selection from `teardownOrder`, and from a fully started session with a
trailing non-empty accumulator it is exactly `teardownOrder`: cancel
timer, close socket, disconnect processor, stop tracks, close audio
context, flush the final chunk. -/
theorem stopCleanup_order (now : ℕ) (s : RecState) :
    List.Sublist (stopCleanup now s).2 teardownOrder ∧
    (s.chunkTimer = true → s.socket = true → s.processor = true →
     s.mediaStream = true → s.audioContextPresent = true →
     s.audioContextClosed = false → trimStr s.acc ≠ [] →
     (stopCleanup now s).2 = teardownOrder) := by
  constructor
  · rw [stopCleanup_trace]
    exact List.filter_sublist _
  · intro h1 h2 h3 h4 h5 h6 h7
    rw [stopCleanup_trace]
    simp [teardownOrder, teardownGuard, h1, h2, h3, h4, h5, h6, h7]

/-- C4 witness: a fully started session with pending accumulator text
tears down through all six steps in order. -/
theorem stopCleanup_order_witness :
    (stopCleanup 9000 ⟨true, true, true, true, true, false, ['h', 'i'], [], some 1000⟩).2
      = teardownOrder :=
  (stopCleanup_order 9000 ⟨true, true, true, true, true, false, ['h', 'i'], [], some 1000⟩).2
    rfl rfl rfl rfl rfl rfl (by decide)

/-- C5: stop is idempotent — a second invocation releases nothing (its
trace is empty) and leaves the state unchanged, each resource is released
at most once by the first invocation, and a step fires exactly when the
corresponding resource is held, so a stop from a partially initialized
state is safe. -/
theorem stopCleanup_idempotent (now now2 : ℕ) (s : RecState) :
    stopCleanup now2 (stopCleanup now s).1 = ((stopCleanup now s).1, []) ∧
    (∀ a : TeardownAction, (stopCleanup now s).2.count a ≤ 1) ∧
    (∀ a : TeardownAction, a ∈ (stopCleanup now s).2 ↔ teardownGuard s a = true) := by
  refine ⟨?_, ?_, ?_⟩
  · obtain ⟨b1, b2, b3, b4, b5, b6, acc, chunks, st⟩ := s
    by_cases h6 : trimStr acc = [] <;>
      cases b1 <;> cases b2 <;> cases b3 <;> cases b4 <;> cases b5 <;> cases b6 <;>
        simp [stopCleanup, h6, trimStr_nil]
  · intro a
    rw [stopCleanup_trace]
    have hnd : teardownOrder.Nodup := by decide
    exact List.nodup_iff_count_le_one.mp (hnd.filter _) a
  · intro a
    rw [stopCleanup_trace, List.mem_filter]
    constructor
    · exact fun h => h.2
    · intro h
      refine ⟨?_, h⟩
      cases a <;> simp [teardownOrder]

/-! ## Elapsed-time formatting and the in-session event model -/

/-- `String(n).padStart(2, "0")`. -/
def padTwo (n : ℕ) : Str :=
  let ds := (toString n).data
  if ds.length < 2 then List.replicate (2 - ds.length) '0' ++ ds else ds

/-- `formatTime` from the source: elapsed milliseconds rendered `MM:SS`. -/
def formatTime (ms : ℕ) : Str :=
  padTwo (ms / 1000 / 60) ++ ':' :: padTwo (ms / 1000 % 60)

/-- The minutes/seconds pair a timestamp is formatted from. -/
def mmss (ms : ℕ) : ℕ × ℕ := (ms / 1000 / 60, ms / 1000 % 60)

/-- Chronological order on formatted `MM:SS` values. -/
def mmssLe (a b : ℕ × ℕ) : Prop := a.1 < b.1 ∨ (a.1 = b.1 ∧ a.2 ≤ b.2)

theorem mmss_mono {m1 m2 : ℕ} (h : m1 ≤ m2) : mmssLe (mmss m1) (mmss m2) := by
  unfold mmss mmssLe
  simp only
  omega

/-- The asynchronous events that touch transcript state during recording:
a final recognition fragment, a 5-second chunk-timer tick, and an injected
question marker. -/
inductive SessionEvent
  | finalFragment (frag : Str)
  | timerFlush
  | questionMarker (n : ℕ) (qtext : Str)

structure SessionState where
  acc : Str
  chunks : List Chunk
  startTime : ℕ

/-- One event handler invocation at absolute time `now`:
`onmessage` appends a truthy final fragment to the accumulator, the timer
body flushes a non-empty trimmed accumulator as one chunk, and
`addQuestionMarker` appends a `Qn: text` chunk stamped with the current
elapsed time. -/
def sessionStep (s : SessionState) (e : SessionEvent) (now : ℕ) : SessionState :=
  match e with
  | SessionEvent.finalFragment f =>
      if f = [] then s else { s with acc := appendFragment s.acc f }
  | SessionEvent.timerFlush =>
      if trimStr s.acc = [] then s
      else { s with
              chunks := s.chunks ++ [⟨trimStr s.acc, now - s.startTime, false⟩],
              acc := [] }
  | SessionEvent.questionMarker n q =>
      { s with
          chunks := s.chunks
            ++ [⟨'Q' :: (toString n).data ++ ':' :: ' ' :: q, now - s.startTime, true⟩] }

def runEvents (s : SessionState) : List (SessionEvent × ℕ) → SessionState
  | [] => s
  | (e, t) :: rest => runEvents (sessionStep s e t) rest

def initialSession (t0 : ℕ) : SessionState := ⟨[], [], t0⟩

/-- A whole recording session: start at `t0`, handle the events in order,
and perform the final accumulator flush of the stop branch at `tEnd`. -/
def runSessionStop (t0 : ℕ) (events : List (SessionEvent × ℕ)) (tEnd : ℕ) : SessionState :=
  runEvents (initialSession t0) (events ++ [(SessionEvent.timerFlush, tEnd)])

def chunkLe (c c' : Chunk) : Prop := c.elapsedMs ≤ c'.elapsedMs

theorem chain'_append_one {α : Type} {R : α → α → Prop} {l : List α} {a : α}
    (h : List.Chain' R l) (h2 : ∀ x ∈ l, R x a) : List.Chain' R (l ++ [a]) := by
  induction l with
  | nil => simp
  | cons x rest ih =>
      cases rest with
      | nil =>
          simp only [List.nil_append, List.cons_append]
          exact List.chain'_cons.mpr ⟨h2 x (by simp), List.chain'_singleton a⟩
      | cons y rest' =>
          rw [List.cons_append]
          rw [List.chain'_cons] at h
          refine List.chain'_cons.mpr ⟨h.1, ?_⟩
          exact ih h.2 (fun z hz => h2 z (List.mem_cons_of_mem x hz))

def lastTime (now : ℕ) : List (SessionEvent × ℕ) → ℕ
  | [] => now
  | (_, t) :: rest => lastTime t rest

theorem runEvents_inv (events : List (SessionEvent × ℕ)) :
    ∀ (s : SessionState) (now : ℕ),
    s.startTime ≤ now →
    List.Chain' (· ≤ ·) (now :: events.map Prod.snd) →
    (∀ c ∈ s.chunks, c.elapsedMs ≤ now - s.startTime) →
    List.Chain' chunkLe s.chunks →
    (∀ c ∈ s.chunks, c.text ≠ []) →
    (runEvents s events).startTime = s.startTime ∧
    (∀ c ∈ (runEvents s events).chunks,
        c.elapsedMs ≤ lastTime now events - s.startTime) ∧
    List.Chain' chunkLe (runEvents s events).chunks ∧
    (∀ c ∈ (runEvents s events).chunks, c.text ≠ []) ∧
    (∃ suffix, s.chunks ++ suffix = (runEvents s events).chunks) := by
  induction events with
  | nil =>
      intro s now h0 _ hb hc ht
      exact ⟨rfl, hb, hc, ht, [], by simp [runEvents]⟩
  | cons et rest ih =>
      obtain ⟨e, t⟩ := et
      intro s now h0 hchain hb hc ht
      rw [List.map_cons, List.chain'_cons] at hchain
      obtain ⟨hnt, hchain'⟩ := hchain
      have hst : (sessionStep s e t).startTime = s.startTime := by
        cases e with
        | finalFragment f =>
            by_cases hf : f = [] <;> simp [sessionStep, hf]
        | timerFlush =>
            by_cases ha : trimStr s.acc = [] <;> simp [sessionStep, ha]
        | questionMarker n q => simp [sessionStep]
      have hstep : (sessionStep s e t).startTime ≤ t ∧
          (∀ c ∈ (sessionStep s e t).chunks,
              c.elapsedMs ≤ t - (sessionStep s e t).startTime) ∧
          List.Chain' chunkLe (sessionStep s e t).chunks ∧
          (∀ c ∈ (sessionStep s e t).chunks, c.text ≠ []) ∧
          (∃ pre, s.chunks ++ pre = (sessionStep s e t).chunks) := by
        have hbound : ∀ c ∈ s.chunks, c.elapsedMs ≤ t - s.startTime :=
          fun c hcc => le_trans (hb c hcc) (Nat.sub_le_sub_right hnt _)
        cases e with
        | finalFragment f =>
            by_cases hf : f = []
            · simp only [sessionStep, if_pos hf]
              exact ⟨le_trans h0 hnt, hbound, hc, ht, [], by simp⟩
            · simp only [sessionStep, if_neg hf]
              exact ⟨le_trans h0 hnt, hbound, hc, ht, [], by simp⟩
        | timerFlush =>
            by_cases ha : trimStr s.acc = []
            · simp only [sessionStep, if_pos ha]
              exact ⟨le_trans h0 hnt, hbound, hc, ht, [], by simp⟩
            · simp only [sessionStep, if_neg ha]
              refine ⟨le_trans h0 hnt, ?_, ?_, ?_, ?_⟩
              · intro c hcc
                rw [List.mem_append] at hcc
                cases hcc with
                | inl hmem => exact hbound c hmem
                | inr hnew =>
                    simp only [List.mem_singleton] at hnew
                    subst hnew
                    exact le_refl _
              · exact chain'_append_one hc
                  (fun x hx => le_trans (hb x hx) (Nat.sub_le_sub_right hnt _))
              · intro c hcc
                rw [List.mem_append] at hcc
                cases hcc with
                | inl hmem => exact ht c hmem
                | inr hnew =>
                    simp only [List.mem_singleton] at hnew
                    subst hnew
                    exact ha
              · exact ⟨_, rfl⟩
        | questionMarker n q =>
            simp only [sessionStep]
            refine ⟨le_trans h0 hnt, ?_, ?_, ?_, ?_⟩
            · intro c hcc
              rw [List.mem_append] at hcc
              cases hcc with
              | inl hmem => exact hbound c hmem
              | inr hnew =>
                  simp only [List.mem_singleton] at hnew
                  subst hnew
                  exact le_refl _
            · exact chain'_append_one hc
                (fun x hx => le_trans (hb x hx) (Nat.sub_le_sub_right hnt _))
            · intro c hcc
              rw [List.mem_append] at hcc
              cases hcc with
              | inl hmem => exact ht c hmem
              | inr hnew =>
                  simp only [List.mem_singleton] at hnew
                  subst hnew
                  simp
            · exact ⟨_, rfl⟩
      obtain ⟨h1, h2, h3, h4, h5⟩ := hstep
      have := ih (sessionStep s e t) t (hst ▸ h1) hchain' (hst ▸ h2) h3 h4
      obtain ⟨g1, g2, g3, g4, g5⟩ := this
      refine ⟨?_, ?_, g3, g4, ?_⟩
      · show (runEvents (sessionStep s e t) rest).startTime = s.startTime
        rw [g1, hst]
      · show ∀ c ∈ (runEvents (sessionStep s e t) rest).chunks,
            c.elapsedMs ≤ lastTime now ((e, t) :: rest) - s.startTime
        intro c hcc
        have := g2 c hcc
        rw [hst] at this
        exact this
      · obtain ⟨pre, hpre⟩ := h5
        obtain ⟨suf, hsuf⟩ := g5
        refine ⟨pre ++ suf, ?_⟩
        show s.chunks ++ (pre ++ suf) = (runEvents (sessionStep s e t) rest).chunks
        rw [← hsuf, ← hpre, List.append_assoc]

theorem runEvents_append (l1 l2 : List (SessionEvent × ℕ)) :
    ∀ s, runEvents s (l1 ++ l2) = runEvents (runEvents s l1) l2 := by
  induction l1 with
  | nil => intro s; rfl
  | cons et rest ih =>
      intro s
      obtain ⟨e, t⟩ := et
      show runEvents (sessionStep s e t) (rest ++ l2)
        = runEvents (runEvents (sessionStep s e t) rest) l2
      exact ih (sessionStep s e t)

theorem sessionStep_chunks_mono (s : SessionState) (e : SessionEvent) (t : ℕ) :
    ∃ p, s.chunks ++ p = (sessionStep s e t).chunks := by
  cases e with
  | finalFragment f =>
      by_cases hf : f = [] <;> simp [sessionStep, hf]
  | timerFlush =>
      by_cases ha : trimStr s.acc = []
      · simp [sessionStep, ha]
      · exact ⟨[⟨trimStr s.acc, t - s.startTime, false⟩], by simp [sessionStep, ha]⟩
  | questionMarker n q =>
      exact ⟨[⟨'Q' :: (toString n).data ++ ':' :: ' ' :: q, t - s.startTime, true⟩],
        by simp [sessionStep]⟩

theorem runEvents_chunks_mono (l : List (SessionEvent × ℕ)) :
    ∀ s, ∃ suf, s.chunks ++ suf = (runEvents s l).chunks := by
  induction l with
  | nil => intro s; exact ⟨[], by simp [runEvents]⟩
  | cons et rest ih =>
      intro s
      obtain ⟨e, t⟩ := et
      obtain ⟨p, hp⟩ := sessionStep_chunks_mono s e t
      obtain ⟨suf, hsuf⟩ := ih (sessionStep s e t)
      refine ⟨p ++ suf, ?_⟩
      show s.chunks ++ (p ++ suf) = (runEvents (sessionStep s e t) rest).chunks
      rw [← hsuf, ← hp, List.append_assoc]

/-- C6: within a single session (events handled at non-decreasing times
after the recording start), the emitted chunk sequence is append-only,
its elapsed times — and hence the formatted `MM:SS` timestamps — are
non-decreasing, and no emitted chunk, speech or marker, has empty text:
flushes fire only on a non-empty trimmed accumulator. -/
theorem sessionChunks_invariant (t0 : ℕ) (events : List (SessionEvent × ℕ)) (tEnd : ℕ)
    (hchain : List.Chain' (· ≤ ·) (t0 :: (events.map Prod.snd ++ [tEnd]))) :
    List.Chain' chunkLe (runSessionStop t0 events tEnd).chunks ∧
    List.Chain' (fun c c' => mmssLe (mmss c.elapsedMs) (mmss c'.elapsedMs))
      (runSessionStop t0 events tEnd).chunks ∧
    (∀ c ∈ (runSessionStop t0 events tEnd).chunks, c.text ≠ []) ∧
    (∀ n, ∃ suffix,
        (runEvents (initialSession t0) (events.take n)).chunks ++ suffix
          = (runSessionStop t0 events tEnd).chunks) := by
  have hmap : (events ++ [(SessionEvent.timerFlush, tEnd)]).map Prod.snd
      = events.map Prod.snd ++ [tEnd] := by simp
  have h := runEvents_inv (events ++ [(SessionEvent.timerFlush, tEnd)])
    (initialSession t0) t0 (le_refl t0) (by rw [hmap]; exact hchain)
    (by intro c hcc; simp [initialSession] at hcc)
    (by simp [initialSession])
    (by intro c hcc; simp [initialSession] at hcc)
  obtain ⟨_, _, hch, htx, _⟩ := h
  refine ⟨hch, ?_, htx, ?_⟩
  · exact List.Chain'.imp (fun a b hab => mmss_mono hab) hch
  · intro n
    have hsplit : events ++ [(SessionEvent.timerFlush, tEnd)]
        = events.take n ++ (events.drop n ++ [(SessionEvent.timerFlush, tEnd)]) := by
      rw [← List.append_assoc, List.take_append_drop]
    unfold runSessionStop
    rw [hsplit, runEvents_append]
    exact runEvents_chunks_mono _ _

/-- C6 witness: a concrete session with a speech chunk, a question marker
and a trailing flushed chunk satisfies the invariant. -/
theorem sessionChunks_invariant_witness :
    List.Chain' (· ≤ ·)
      (1000 :: (([((SessionEvent.finalFragment ("hi").data : SessionEvent), 2000),
                  (SessionEvent.timerFlush, 6000),
                  (SessionEvent.questionMarker 1 ("q").data, 7000)] :
           List (SessionEvent × ℕ)).map Prod.snd ++ [11000])) ∧
    (∀ c ∈ (runSessionStop 1000
        [((SessionEvent.finalFragment ("hi").data : SessionEvent), 2000),
         (SessionEvent.timerFlush, 6000),
         (SessionEvent.questionMarker 1 ("q").data, 7000)] 11000).chunks,
       c.text ≠ []) :=
  ⟨by simp [List.chain'_cons],
   (sessionChunks_invariant 1000
     [((SessionEvent.finalFragment ("hi").data : SessionEvent), 2000),
      (SessionEvent.timerFlush, 6000),
      (SessionEvent.questionMarker 1 ("q").data, 7000)] 11000
     (by simp [List.chain'_cons])).2.2.1⟩

/-! ## Transcript completion callback -/

/-- The completion effect: once recording has stopped and at least one
chunk exists, `onTranscriptComplete` receives all chunk texts joined by
single spaces; otherwise it is not invoked. -/
def transcriptCompletion (isRecording : Bool) (chunks : List Chunk) : Option Str :=
  if isRecording = false ∧ chunks ≠ [] then
    some (joinSpace (chunks.map Chunk.text))
  else none

/-- C10: the completion callback fires iff recording has stopped and the
session produced at least one chunk; its argument is all chunk texts —
speech and question markers alike — joined in order by single spaces; a
session with no events produces no chunks and hence no callback. -/
theorem transcriptCompletion_spec :
    (∀ (rec : Bool) (chunks : List Chunk),
        transcriptCompletion rec chunks ≠ none ↔ rec = false ∧ chunks ≠ []) ∧
    (∀ (rec : Bool) (chunks : List Chunk) (out : Str),
        transcriptCompletion rec chunks = some out →
        out = joinSpace (chunks.map Chunk.text)) ∧
    (∀ t0 tEnd : ℕ,
        transcriptCompletion false (runSessionStop t0 [] tEnd).chunks = none) := by
  refine ⟨?_, ?_, ?_⟩
  · intro rec chunks
    unfold transcriptCompletion
    by_cases h : rec = false ∧ chunks ≠ []
    · rw [if_pos h]
      simp [h]
    · rw [if_neg h]
      simp [h]
  · intro rec chunks out h
    unfold transcriptCompletion at h
    by_cases hc : rec = false ∧ chunks ≠ []
    · rw [if_pos hc] at h
      exact (Option.some_injective _ h).symm
    · rw [if_neg hc] at h
      exact absurd h (by simp)
  · intro t0 tEnd
    simp [runSessionStop, runEvents, sessionStep, initialSession,
      trimStr_nil, transcriptCompletion]

/-- C10 witness: a stopped session holding one speech chunk and one
question-marker chunk reports their texts joined by a single space. -/
theorem transcriptCompletion_spec_witness :
    transcriptCompletion false
        [⟨("hi").data, 5000, false⟩, ⟨("Q1: q").data, 7000, true⟩]
      = some (("hi Q1: q").data) ∧
    ("hi Q1: q").data = joinSpace
      (([⟨("hi").data, 5000, false⟩, ⟨("Q1: q").data, 7000, true⟩] :
          List Chunk).map Chunk.text) :=
  ⟨by decide,
   transcriptCompletion_spec.2.1 false
     [⟨("hi").data, 5000, false⟩, ⟨("Q1: q").data, 7000, true⟩]
     (("hi Q1: q").data) (by decide)⟩

/-! ## Recording initialization (`initializeRecording`) -/

inductive InitErr
  | fetchFailed
  | misconfiguredKey
  | permissionDenied
  deriving DecidableEq

/-- The environment a single run of the initialization routine observes:
the outcome of the credential fetch, whether the response body carries a
truthy `api_key`, the value of the session-still-active flag at the two
re-check points (after the credential fetch and after the microphone
request), and whether microphone permission is granted. -/
structure InitEnv where
  keyOk : Bool
  keyPresent : Bool
  mountedAfterKey : Bool
  micGranted : Bool
  mountedAfterMic : Bool
  deriving DecidableEq

inductive InitAction
  | fetchKey
  | requestMic
  | stopFreshTracks
  | createAudioContext
  | createProcessor
  | openSocket
  deriving DecidableEq

/-- The component state the routine can leave behind. -/
structure InitState where
  err : Option InitErr
  isConnecting : Bool
  mediaStream : Bool
  audioContext : Bool
  processor : Bool
  socket : Bool
  terminated : Bool
  deriving DecidableEq

/-- State at entry of the `try` block: connecting, no error, no resources. -/
def initEntry : InitState :=
  ⟨none, true, false, false, false, false, false⟩

/-- `initializeRecording` translated branch by branch: fetch the key
(throwing on a non-ok response or a missing `api_key`, caught below
without terminating the process), re-check the mounted flag, request the
microphone (throwing on denial), re-check the mounted flag again —
stopping the fresh stream's tracks and returning without retaining it if
the session was stopped meanwhile — then store the stream and build the
audio context, processor and socket. -/
def initRecording (env : InitEnv) : InitState × List InitAction :=
  if env.keyOk = false then
    ({ initEntry with
        err := if env.mountedAfterKey then some InitErr.fetchFailed else none,
        isConnecting := !env.mountedAfterKey },
     [InitAction.fetchKey])
  else if env.keyPresent = false then
    ({ initEntry with
        err := if env.mountedAfterKey then some InitErr.misconfiguredKey else none,
        isConnecting := !env.mountedAfterKey },
     [InitAction.fetchKey])
  else if env.mountedAfterKey = false then
    (initEntry, [InitAction.fetchKey])
  else if env.micGranted = false then
    ({ initEntry with
        err := if env.mountedAfterMic then some InitErr.permissionDenied else none,
        isConnecting := !env.mountedAfterMic },
     [InitAction.fetchKey, InitAction.requestMic])
  else if env.mountedAfterMic = false then
    (initEntry, [InitAction.fetchKey, InitAction.requestMic, InitAction.stopFreshTracks])
  else
    (⟨none, true, true, true, true, true, false⟩,
     [InitAction.fetchKey, InitAction.requestMic, InitAction.createAudioContext,
      InitAction.createProcessor, InitAction.openSocket])

/-- C8: when the credential response carries no API key, initialization
fails with the misconfigured-credential error visible in component state,
connecting is cleared, no microphone stream, audio context or socket was
acquired (the microphone was never even requested), and the host process
is not terminated. -/
theorem initRecording_missingKey (env : InitEnv)
    (hok : env.keyOk = true) (hkey : env.keyPresent = false)
    (hm : env.mountedAfterKey = true) :
    (initRecording env).1.err = some InitErr.misconfiguredKey ∧
    (initRecording env).1.isConnecting = false ∧
    (initRecording env).1.mediaStream = false ∧
    (initRecording env).1.audioContext = false ∧
    (initRecording env).1.socket = false ∧
    (initRecording env).1.terminated = false ∧
    (initRecording env).2 = [InitAction.fetchKey] := by
  simp [initRecording, hok, hkey, hm, initEntry]

/-- C8 witness. -/
theorem initRecording_missingKey_witness :
    (initRecording ⟨true, false, true, true, true⟩).1.err
        = some InitErr.misconfiguredKey ∧
    (initRecording ⟨true, false, true, true, true⟩).2 = [InitAction.fetchKey] :=
  ⟨(initRecording_missingKey ⟨true, false, true, true, true⟩ rfl rfl rfl).1,
   (initRecording_missingKey ⟨true, false, true, true, true⟩ rfl rfl rfl).2.2.2.2.2.2⟩

/-- C9: the session-still-active flag is re-checked after each suspension
point: if the session was stopped before the post-fetch check, the
microphone is never requested and no resource is acquired; if it was
stopped while the microphone request was in flight, the freshly granted
stream's tracks are stopped immediately, the stream is not retained, and
no further resource is acquired. -/
theorem initRecording_staleStop (env : InitEnv) :
    (env.mountedAfterKey = false →
     (initRecording env).1.mediaStream = false ∧
     (initRecording env).1.audioContext = false ∧
     (initRecording env).1.socket = false ∧
     InitAction.requestMic ∉ (initRecording env).2) ∧
    (env.keyOk = true → env.keyPresent = true → env.mountedAfterKey = true →
     env.micGranted = true → env.mountedAfterMic = false →
     (initRecording env).1 = initEntry ∧
     (initRecording env).2
        = [InitAction.fetchKey, InitAction.requestMic, InitAction.stopFreshTracks]) := by
  obtain ⟨kok, kp, m1, mic, m2⟩ := env
  constructor
  · intro h1
    cases kok <;> cases kp <;> simp_all [initRecording, initEntry]
  · intro h1 h2 h3 h4 h5
    simp_all [initRecording]

/-- C9 witness: session stopped while the microphone request was in
flight. -/
theorem initRecording_staleStop_witness :
    (initRecording ⟨true, true, true, true, false⟩).1 = initEntry ∧
    (initRecording ⟨true, true, true, true, false⟩).2
        = [InitAction.fetchKey, InitAction.requestMic, InitAction.stopFreshTracks] :=
  (initRecording_staleStop ⟨true, true, true, true, false⟩).2 rfl rfl rfl rfl rfl

/-! ## Question orchestration

The QuestionOrchestrator implementation is not part of the repository
snapshot — only the `QuestionItem` shape and the `QuestionListPanel`
callback declarations are.  The operations below are therefore modelled
from the specification. -/

inductive QStatus
  | pending
  | active
  | done
  | skipped
  deriving DecidableEq

/-- Modelled from the spec: a locally held Question — `id`, `text`,
`order`, `status` — plus a flag recording that its status carries a local
optimistic mutation not yet acknowledged by the remote store. -/
structure OrchQ where
  id : String
  qtext : String
  qorder : ℕ
  status : QStatus
  dirty : Bool
  deriving DecidableEq

/-- Modelled from the spec: one question of a remote snapshot. -/
structure RemoteQ where
  id : String
  qtext : String
  qorder : ℕ
  status : QStatus
  deriving DecidableEq

def isActiveQ (q : OrchQ) : Bool :=
  match q.status with
  | QStatus.active => true
  | _ => false

def isActiveR (r : RemoteQ) : Bool :=
  match r.status with
  | QStatus.active => true
  | _ => false

/-- The cross-entity invariant: at most one question is `active`. -/
def atMostOneActive (qs : List OrchQ) : Prop := qs.countP isActiveQ ≤ 1

/-- Well-formedness of a question collection: ids are distinct. -/
def distinctIds (qs : List OrchQ) : Prop := qs.Pairwise (fun a b => a.id ≠ b.id)

instance (qs : List OrchQ) : Decidable (atMostOneActive qs) :=
  inferInstanceAs (Decidable (qs.countP isActiveQ ≤ 1))

instance (qs : List OrchQ) : Decidable (distinctIds qs) :=
  inferInstanceAs (Decidable (qs.Pairwise fun (a b : OrchQ) => a.id ≠ b.id))

def findQ (qs : List OrchQ) (i : String) : Option OrchQ :=
  qs.find? (fun q => q.id == i)

/-- Modelled from the spec: `setActive(id)` sets a `pending` target to
`active` and demotes any other currently-`active` question to `pending`;
an illegal activation (target absent or not `pending`) is rejected as a
no-op.  Locally mutated questions become unacknowledged. -/
def setActive (i : String) (qs : List OrchQ) : List OrchQ :=
  if qs.any (fun q => q.id == i && decide (q.status = QStatus.pending)) then
    qs.map fun q =>
      if q.id = i then { q with status := QStatus.active, dirty := true }
      else if q.status = QStatus.active then
        { q with status := QStatus.pending, dirty := true }
      else q
  else qs

/-- Modelled from the spec: the status write of `markDone(id)` — the
`active -> done` transition; any other transition to `done` is rejected. -/
def markDoneStatus (i : String) (qs : List OrchQ) : List OrchQ :=
  qs.map fun q =>
    if q.id = i ∧ q.status = QStatus.active then
      { q with status := QStatus.done, dirty := true }
    else q

/-- Modelled from the spec: the auto-advance selection — the
lowest-`order` question with status `pending` and `order` greater than
the completed question's order. -/
def nextPending (qs : List OrchQ) (o : ℕ) : Option OrchQ :=
  (qs.filter fun q =>
      decide (q.status = QStatus.pending) && decide (o < q.qorder)).argmin OrchQ.qorder

/-- Modelled from the spec: `markDone(id)` sets the target `done` and, if
a next pending question exists, schedules `setActive` on it after the
debounce delay; the delay is collapsed here, so the returned collection
is the state once the debounced activation has fired. -/
def markDoneAuto (i : String) (qs : List OrchQ) : List OrchQ :=
  match findQ qs i with
  | none => qs
  | some q =>
      if q.status = QStatus.active then
        match nextPending (markDoneStatus i qs) q.qorder with
        | none => markDoneStatus i qs
        | some nq => setActive nq.id (markDoneStatus i qs)
      else qs

/-- Modelled from the spec: `markSkipped(id)` — the `active -> skipped`
transition, no auto-advance. -/
def markSkipped (i : String) (qs : List OrchQ) : List OrchQ :=
  qs.map fun q =>
    if q.id = i ∧ q.status = QStatus.active then
      { q with status := QStatus.skipped, dirty := true }
    else q

/-- Modelled from the spec: status resolution during `merge` — the remote
status is authoritative unless the local question carries an
unacknowledged local mutation that the remote status has not yet
superseded (a remote status equal to the local one acknowledges it). -/
def mergeStatus (qs : List OrchQ) (r : RemoteQ) : QStatus :=
  match findQ qs r.id with
  | some l => if l.dirty then (if l.status = r.status then r.status else l.status)
              else r.status
  | none => r.status

def mergeDirty (qs : List OrchQ) (r : RemoteQ) : Bool :=
  match findQ qs r.id with
  | some l => if l.dirty then (if l.status = r.status then false else true) else false
  | none => false

/-- Modelled from the spec: `merge(remoteQuestions)` — the remote
snapshot is authoritative for question existence, `order` and `text`;
statuses resolve per `mergeStatus`. -/
def mergeQ (qs : List OrchQ) (remote : List RemoteQ) : List OrchQ :=
  remote.map fun r => ⟨r.id, r.qtext, r.qorder, mergeStatus qs r, mergeDirty qs r⟩

/-- A user-initiated orchestrator operation. -/
inductive UserOp
  | uSetActive (i : String)
  | uMarkDone (i : String)
  | uMarkSkipped (i : String)

def applyUserOp (qs : List OrchQ) : UserOp → List OrchQ
  | UserOp.uSetActive i => setActive i qs
  | UserOp.uMarkDone i => markDoneAuto i qs
  | UserOp.uMarkSkipped i => markSkipped i qs

theorem two_mem_le_countP {α : Type} (p : α → Bool) {l : List α} {a b : α}
    (ha : a ∈ l) (hb : b ∈ l) (hab : a ≠ b)
    (hpa : p a = true) (hpb : p b = true) : 2 ≤ l.countP p := by
  have ha' : a ∈ l.filter p := List.mem_filter.mpr ⟨ha, hpa⟩
  have hb' : b ∈ l.filter p := List.mem_filter.mpr ⟨hb, hpb⟩
  rw [List.countP_eq_length_filter]
  cases hf : l.filter p with
  | nil => rw [hf] at ha'; exact absurd ha' (List.not_mem_nil a)
  | cons x t =>
      cases t with
      | nil =>
          rw [hf] at ha' hb'
          simp only [List.mem_singleton] at ha' hb'
          exact absurd (ha'.trans hb'.symm) hab
      | cons y t' => simp [hf]

theorem countP_id_le_one (i : String) {qs : List OrchQ} (hd : distinctIds qs) :
    qs.countP (fun q => decide (q.id = i)) ≤ 1 := by
  induction qs with
  | nil => simp
  | cons q rest ih =>
      unfold distinctIds at hd
      rw [List.pairwise_cons] at hd
      obtain ⟨hq, hrest⟩ := hd
      rw [List.countP_cons]
      by_cases h : q.id = i
      · have hzero : rest.countP (fun x => decide (x.id = i)) = 0 := by
          rw [List.countP_eq_zero]
          intro b hbmem
          simp only [decide_eq_true_eq]
          intro hbi
          exact hq b hbmem (h.trans hbi.symm)
        simp [hzero, h]
      · have hdec : (decide (q.id = i)) = false := by simp [h]
        simp only [hdec]
        simpa using ih hrest

theorem distinctIds_map {f : OrchQ → OrchQ} (hf : ∀ q, (f q).id = q.id)
    {qs : List OrchQ} (hd : distinctIds qs) : distinctIds (qs.map f) := by
  unfold distinctIds
  rw [List.pairwise_map]
  exact hd.imp (fun h => by rw [hf, hf]; exact h)

theorem isActiveQ_iff (q : OrchQ) : isActiveQ q = true ↔ q.status = QStatus.active := by
  cases hs : q.status <;> simp [isActiveQ, hs]

theorem isActiveR_iff (r : RemoteQ) : isActiveR r = true ↔ r.status = QStatus.active := by
  cases hs : r.status <;> simp [isActiveR, hs]

theorem setActive_preserves (i : String) {qs : List OrchQ}
    (hd : distinctIds qs) (hinv : atMostOneActive qs) :
    atMostOneActive (setActive i qs) := by
  unfold setActive
  by_cases hg : qs.any (fun q => q.id == i && decide (q.status = QStatus.pending))
  · rw [if_pos hg]
    unfold atMostOneActive
    rw [List.countP_map]
    refine le_trans (le_of_eq (List.countP_congr ?_)) (countP_id_le_one i hd)
    intro q hqmem
    by_cases hqi : q.id = i
    · simp [Function.comp, if_pos hqi, isActiveQ_iff, hqi]
    · by_cases hact : q.status = QStatus.active
      · simp [Function.comp, if_neg hqi, if_pos hact, isActiveQ_iff, hqi]
      · simp [Function.comp, if_neg hqi, if_neg hact, isActiveQ_iff, hqi, hact]
  · rw [if_neg hg]
    exact hinv

theorem markDoneStatus_preserves (i : String) {qs : List OrchQ}
    (hinv : atMostOneActive qs) : atMostOneActive (markDoneStatus i qs) := by
  unfold markDoneStatus atMostOneActive
  rw [List.countP_map]
  refine le_trans (List.countP_mono_left ?_) hinv
  intro q hqmem h
  by_cases hc : q.id = i ∧ q.status = QStatus.active
  · simp [Function.comp, if_pos hc, isActiveQ] at h
  · simpa [Function.comp, if_neg hc] using h

theorem markSkipped_preserves (i : String) {qs : List OrchQ}
    (hinv : atMostOneActive qs) : atMostOneActive (markSkipped i qs) := by
  unfold markSkipped atMostOneActive
  rw [List.countP_map]
  refine le_trans (List.countP_mono_left ?_) hinv
  intro q hqmem h
  by_cases hc : q.id = i ∧ q.status = QStatus.active
  · simp [Function.comp, if_pos hc, isActiveQ] at h
  · simpa [Function.comp, if_neg hc] using h

theorem markDoneStatus_distinct (i : String) {qs : List OrchQ}
    (hd : distinctIds qs) : distinctIds (markDoneStatus i qs) := by
  unfold markDoneStatus
  refine distinctIds_map ?_ hd
  intro q
  by_cases hc : q.id = i ∧ q.status = QStatus.active
  · simp [if_pos hc]
  · simp [if_neg hc]

theorem markDoneAuto_preserves (i : String) {qs : List OrchQ}
    (hd : distinctIds qs) (hinv : atMostOneActive qs) :
    atMostOneActive (markDoneAuto i qs) := by
  unfold markDoneAuto
  cases hfind : findQ qs i with
  | none => exact hinv
  | some q =>
      show atMostOneActive
        (if q.status = QStatus.active then
          match nextPending (markDoneStatus i qs) q.qorder with
          | none => markDoneStatus i qs
          | some nq => setActive nq.id (markDoneStatus i qs)
        else qs)
      by_cases hact : q.status = QStatus.active
      · rw [if_pos hact]
        cases hnext : nextPending (markDoneStatus i qs) q.qorder with
        | none => exact markDoneStatus_preserves i hinv
        | some nq =>
            exact setActive_preserves nq.id (markDoneStatus_distinct i hd)
              (markDoneStatus_preserves i hinv)
      · rw [if_neg hact]
        exact hinv

theorem setActive_distinct (i : String) {qs : List OrchQ}
    (hd : distinctIds qs) : distinctIds (setActive i qs) := by
  unfold setActive
  by_cases hg : qs.any (fun q => q.id == i && decide (q.status = QStatus.pending))
  · rw [if_pos hg]
    refine distinctIds_map ?_ hd
    intro q
    by_cases hqi : q.id = i
    · simp [if_pos hqi]
    · by_cases hact : q.status = QStatus.active
      · simp [if_neg hqi, if_pos hact]
      · simp [if_neg hqi, if_neg hact]
  · rw [if_neg hg]
    exact hd

theorem markSkipped_distinct (i : String) {qs : List OrchQ}
    (hd : distinctIds qs) : distinctIds (markSkipped i qs) := by
  unfold markSkipped
  refine distinctIds_map ?_ hd
  intro q
  by_cases hc : q.id = i ∧ q.status = QStatus.active
  · simp [if_pos hc]
  · simp [if_neg hc]

theorem markDoneAuto_distinct (i : String) {qs : List OrchQ}
    (hd : distinctIds qs) : distinctIds (markDoneAuto i qs) := by
  unfold markDoneAuto
  cases hfind : findQ qs i with
  | none => exact hd
  | some q =>
      show distinctIds
        (if q.status = QStatus.active then
          match nextPending (markDoneStatus i qs) q.qorder with
          | none => markDoneStatus i qs
          | some nq => setActive nq.id (markDoneStatus i qs)
        else qs)
      by_cases hact : q.status = QStatus.active
      · rw [if_pos hact]
        cases hnext : nextPending (markDoneStatus i qs) q.qorder with
        | none => exact markDoneStatus_distinct i hd
        | some nq => exact setActive_distinct nq.id (markDoneStatus_distinct i hd)
      · rw [if_neg hact]
        exact hd

theorem applyUserOp_preserves {qs : List OrchQ} (op : UserOp)
    (hd : distinctIds qs) (hinv : atMostOneActive qs) :
    distinctIds (applyUserOp qs op) ∧ atMostOneActive (applyUserOp qs op) := by
  cases op with
  | uSetActive i => exact ⟨setActive_distinct i hd, setActive_preserves i hd hinv⟩
  | uMarkDone i => exact ⟨markDoneAuto_distinct i hd, markDoneAuto_preserves i hd hinv⟩
  | uMarkSkipped i => exact ⟨markSkipped_distinct i hd, markSkipped_preserves i hinv⟩

theorem userOps_preserve (ops : List UserOp) :
    ∀ {qs : List OrchQ}, distinctIds qs → atMostOneActive qs →
    atMostOneActive (ops.foldl applyUserOp qs) := by
  induction ops with
  | nil => intro qs _ hinv; exact hinv
  | cons op rest ih =>
      intro qs hd hinv
      obtain ⟨hd', hinv'⟩ := applyUserOp_preserves op hd hinv
      exact ih hd' hinv'

theorem mergeStatus_active_cases {qs : List OrchQ} {r : RemoteQ}
    (h : mergeStatus qs r = QStatus.active) :
    isActiveR r = true ∨
    ∃ l ∈ qs, l.id = r.id ∧ l.dirty = true ∧ l.status = QStatus.active := by
  unfold mergeStatus findQ at h
  cases hf : qs.find? (fun q => q.id == r.id) with
  | none =>
      rw [hf] at h
      exact Or.inl ((isActiveR_iff r).mpr h)
  | some l =>
      rw [hf] at h
      change (if l.dirty = true then (if l.status = r.status then r.status else l.status)
        else r.status) = QStatus.active at h
      by_cases hdirty : l.dirty
      · rw [if_pos hdirty] at h
        by_cases hstat : l.status = r.status
        · rw [if_pos hstat] at h
          exact Or.inl ((isActiveR_iff r).mpr h)
        · rw [if_neg hstat] at h
          refine Or.inr ⟨l, List.mem_of_find?_eq_some hf, ?_, hdirty, h⟩
          have hp := List.find?_some hf
          simpa using hp
      · rw [if_neg hdirty] at h
        exact Or.inl ((isActiveR_iff r).mpr h)

theorem mergeQ_preserves {qs : List OrchQ} {remote : List RemoteQ}
    (hq : atMostOneActive qs)
    (hr : remote.countP isActiveR ≤ 1)
    (hdr : remote.Pairwise (fun a b => a.id ≠ b.id))
    (hcompat : ∀ r ∈ remote, ∀ l ∈ qs, mergeStatus qs r = QStatus.active →
        l.dirty = true → l.status = QStatus.active → l.id = r.id) :
    atMostOneActive (mergeQ qs remote) := by
  unfold mergeQ atMostOneActive
  rw [List.countP_map]
  have hstep : remote.countP
      (isActiveQ ∘ fun r => (⟨r.id, r.qtext, r.qorder, mergeStatus qs r,
        mergeDirty qs r⟩ : OrchQ))
      = remote.countP (fun r => decide (mergeStatus qs r = QStatus.active)) := by
    refine List.countP_congr ?_
    intro r hrmem
    cases hm : mergeStatus qs r <;> simp [Function.comp, isActiveQ, hm]
  rw [hstep]
  by_contra hcon
  have h2 : 2 ≤ remote.countP (fun r => decide (mergeStatus qs r = QStatus.active)) := by
    omega
  rw [List.countP_eq_length_filter] at h2
  cases hfil : remote.filter (fun r => decide (mergeStatus qs r = QStatus.active)) with
  | nil => rw [hfil] at h2; simp at h2
  | cons x t =>
      cases t with
      | nil => rw [hfil] at h2; simp at h2
      | cons y t' =>
          have hxf : x ∈ remote.filter
              (fun r => decide (mergeStatus qs r = QStatus.active)) := by
            rw [hfil]; exact List.mem_cons_self _ _
          have hyf : y ∈ remote.filter
              (fun r => decide (mergeStatus qs r = QStatus.active)) := by
            rw [hfil]; exact List.mem_cons_of_mem _ (List.mem_cons_self _ _)
          obtain ⟨hxr, hPx⟩ := List.mem_filter.mp hxf
          obtain ⟨hyr, hPy⟩ := List.mem_filter.mp hyf
          have hsub : (remote.filter
              (fun r => decide (mergeStatus qs r = QStatus.active))).Sublist remote :=
            List.filter_sublist remote
          have hpairf := hdr.sublist hsub
          rw [hfil] at hpairf
          have hxy : x.id ≠ y.id :=
            (List.pairwise_cons.mp hpairf).1 y (List.mem_cons_self _ _)
          have hmx : mergeStatus qs x = QStatus.active := of_decide_eq_true hPx
          have hmy : mergeStatus qs y = QStatus.active := of_decide_eq_true hPy
          rcases mergeStatus_active_cases hmx with hax | ⟨lx, hlxmem, hlxid, hlxd, hlxa⟩ <;>
            rcases mergeStatus_active_cases hmy with hay | ⟨ly, hlymem, hlyid, hlyd, hlya⟩
          · have := two_mem_le_countP isActiveR hxr hyr
              (fun he => hxy (congrArg RemoteQ.id he)) hax hay
            omega
          · exact absurd
              ((hcompat x hxr ly hlymem hmx hlyd hlya).symm.trans hlyid) hxy
          · exact absurd
              (hlxid.symm.trans (hcompat y hyr lx hlxmem hmy hlxd hlxa)) hxy
          · have hne : lx ≠ ly := fun he =>
              hxy (hlxid.symm.trans ((congrArg OrchQ.id he).trans hlyid))
            have := two_mem_le_countP isActiveQ hlxmem hlymem hne
              ((isActiveQ_iff lx).mpr hlxa) ((isActiveQ_iff ly).mpr hlya)
            unfold atMostOneActive at hq
            omega

/-- C1 counterexample: from a reachable two-question state in which the
user optimistically activated `q2` (not yet acknowledged), merging a
stale remote snapshot that still designates `q1` as active — each side
individually having at most one active question — leaves both `q1` and
`q2` active: the invariant is not preserved by `merge` as specified
(local unacknowledged status wins per question, remote wins elsewhere). -/
theorem singleActive_counterexample :
    atMostOneActive [⟨"q1", "t1", 1, QStatus.pending, false⟩,
                     ⟨"q2", "t2", 2, QStatus.pending, false⟩] ∧
    List.countP isActiveR [⟨"q1", "t1", 1, QStatus.active⟩,
                           ⟨"q2", "t2", 2, QStatus.pending⟩] ≤ 1 ∧
    atMostOneActive
      (setActive "q2"
        [⟨"q1", "t1", 1, QStatus.pending, false⟩,
         ⟨"q2", "t2", 2, QStatus.pending, false⟩]) ∧
    ¬ atMostOneActive
        (mergeQ
          (setActive "q2"
            [⟨"q1", "t1", 1, QStatus.pending, false⟩,
             ⟨"q2", "t2", 2, QStatus.pending, false⟩])
          [⟨"q1", "t1", 1, QStatus.active⟩, ⟨"q2", "t2", 2, QStatus.pending⟩]) := by
  decide

/-- C1 (amended): at most one question is `active` in every state
reachable from a well-formed invariant-satisfying collection by any
interleaving of the user operations `setActive`, `markDone` (with
auto-advance) and `markSkipped`; `merge` preserves the invariant provided
the remote snapshot itself has at most one active question and distinct
ids and does not designate a question active (taking effect through the
resolution) while a different locally-unacknowledged question is active. -/
theorem singleActive_invariant :
    (∀ (qs : List OrchQ) (ops : List UserOp), distinctIds qs → atMostOneActive qs →
        atMostOneActive (ops.foldl applyUserOp qs)) ∧
    (∀ (qs : List OrchQ) (remote : List RemoteQ),
        atMostOneActive qs → remote.countP isActiveR ≤ 1 →
        remote.Pairwise (fun a b => a.id ≠ b.id) →
        (∀ r ∈ remote, ∀ l ∈ qs, mergeStatus qs r = QStatus.active →
            l.dirty = true → l.status = QStatus.active → l.id = r.id) →
        atMostOneActive (mergeQ qs remote)) :=
  ⟨fun _ ops hd hinv => userOps_preserve ops hd hinv,
   fun _ _ hq hr hdr hcompat => mergeQ_preserves hq hr hdr hcompat⟩

/-- C1 witness: activating `q1` and then marking it done (which
auto-advances to `q2`) keeps at most one question active. -/
theorem singleActive_invariant_witness :
    (distinctIds [⟨"q1", "t1", 1, QStatus.pending, false⟩,
                  ⟨"q2", "t2", 2, QStatus.pending, false⟩] ∧
     atMostOneActive [⟨"q1", "t1", 1, QStatus.pending, false⟩,
                      ⟨"q2", "t2", 2, QStatus.pending, false⟩]) ∧
    atMostOneActive
      (([UserOp.uSetActive "q1", UserOp.uMarkDone "q1"] : List UserOp).foldl
        applyUserOp
        [⟨"q1", "t1", 1, QStatus.pending, false⟩,
         ⟨"q2", "t2", 2, QStatus.pending, false⟩]) :=
  ⟨⟨by decide, by decide⟩,
   singleActive_invariant.1
     [⟨"q1", "t1", 1, QStatus.pending, false⟩,
      ⟨"q2", "t2", 2, QStatus.pending, false⟩]
     [UserOp.uSetActive "q1", UserOp.uMarkDone "q1"]
     (by decide) (by decide)⟩

/-- The spec's auto-advance scenario: `q1` active, `q2` pending
(order 2), `q3` skipped (order 3). -/
def scenarioQs : List OrchQ :=
  [⟨"q1", "t1", 1, QStatus.active, false⟩,
   ⟨"q2", "t2", 2, QStatus.pending, false⟩,
   ⟨"q3", "t3", 3, QStatus.skipped, false⟩]

/-- C7: the auto-advance of `markDone` selects exactly the lowest-order
question that is `pending` with order greater than the completed one
(skipped questions are never selected since only `pending` ones are
candidates); when no such question exists nothing is activated; and in
the spec's scenario `markDone("q1")` activates `q2` and leaves `q3`
skipped.  The debounce delay is collapsed: the equations describe the
state once the scheduled activation has fired. -/
theorem markDone_autoAdvance :
    (∀ (qs : List OrchQ) (o : ℕ) (q : OrchQ), nextPending qs o = some q →
        q ∈ qs ∧ q.status = QStatus.pending ∧ o < q.qorder ∧
        ∀ r ∈ qs, r.status = QStatus.pending → o < r.qorder → q.qorder ≤ r.qorder) ∧
    (∀ (qs : List OrchQ) (o : ℕ), nextPending qs o = none →
        ∀ r ∈ qs, r.status = QStatus.pending → r.qorder ≤ o) ∧
    (∀ (i : String) (qs : List OrchQ) (q : OrchQ), findQ qs i = some q →
        q.status = QStatus.active →
        nextPending (markDoneStatus i qs) q.qorder = none →
        markDoneAuto i qs = markDoneStatus i qs) ∧
    markDoneAuto "q1" scenarioQs =
      [⟨"q1", "t1", 1, QStatus.done, true⟩,
       ⟨"q2", "t2", 2, QStatus.active, true⟩,
       ⟨"q3", "t3", 3, QStatus.skipped, false⟩] := by
  refine ⟨?_, ?_, ?_, by decide⟩
  · intro qs o q h
    unfold nextPending at h
    have hqmem := List.argmin_mem h
    obtain ⟨hmem, hp⟩ := List.mem_filter.mp hqmem
    simp only [Bool.and_eq_true, decide_eq_true_eq] at hp
    refine ⟨hmem, hp.1, hp.2, ?_⟩
    intro r hrmem hrp hro
    have hrf : r ∈ qs.filter (fun q =>
        decide (q.status = QStatus.pending) && decide (o < q.qorder)) :=
      List.mem_filter.mpr ⟨hrmem, by simp [hrp, hro]⟩
    exact List.le_of_mem_argmin hrf h
  · intro qs o h r hrmem hrp
    by_contra hro
    push_neg at hro
    have hrf : r ∈ qs.filter (fun q =>
        decide (q.status = QStatus.pending) && decide (o < q.qorder)) :=
      List.mem_filter.mpr ⟨hrmem, by simp [hrp, hro]⟩
    unfold nextPending at h
    rw [List.argmin_eq_none] at h
    rw [h] at hrf
    exact absurd hrf (List.not_mem_nil r)
  · intro i qs q hfind hact hnone
    unfold markDoneAuto
    rw [hfind]
    show (if q.status = QStatus.active then
        match nextPending (markDoneStatus i qs) q.qorder with
        | none => markDoneStatus i qs
        | some nq => setActive nq.id (markDoneStatus i qs)
      else qs) = markDoneStatus i qs
    rw [if_pos hact, hnone]

/-- C7 witness: in the scenario state after `q1`'s `done` write, the
selection picks `q2` — a pending question of order 2, minimal among
pending questions of order above 1. -/
theorem markDone_autoAdvance_witness :
    nextPending (markDoneStatus "q1" scenarioQs) 1
        = some ⟨"q2", "t2", 2, QStatus.pending, false⟩ ∧
    ((⟨"q2", "t2", 2, QStatus.pending, false⟩ : OrchQ) ∈ markDoneStatus "q1" scenarioQs ∧
     (⟨"q2", "t2", 2, QStatus.pending, false⟩ : OrchQ).status = QStatus.pending ∧
     1 < (⟨"q2", "t2", 2, QStatus.pending, false⟩ : OrchQ).qorder ∧
     ∀ r ∈ markDoneStatus "q1" scenarioQs, r.status = QStatus.pending →
       1 < r.qorder →
       (⟨"q2", "t2", 2, QStatus.pending, false⟩ : OrchQ).qorder ≤ r.qorder) :=
  ⟨by decide,
   markDone_autoAdvance.1 (markDoneStatus "q1" scenarioQs) 1
     ⟨"q2", "t2", 2, QStatus.pending, false⟩ (by decide)⟩

end PMFCopilot
